import Mathlib

/-!
Verification of the migration engine in `database/scripts/db.ts`.

The engine is embedded shallowly: the external command runner (`psql`
invocations through `exec`) becomes an oracle `Cmd → Bool` deciding which
invocation succeeds, the `schema_migrations` table becomes a list of version
strings, and every operation returns its result together with the final
database state and the list of observable side effects (temp-file writes and
command invocations) it produced.  String manipulation (`trim`, `split`,
`replace`, `sort`, the case-insensitive "-- UP" / "-- DOWN" section split
with its captured tags) is embedded at the
character level, matching the JavaScript semantics on the ASCII data this
tool handles.
-/

namespace FoodMigrate

/-- Whitespace test mirroring JavaScript `String.prototype.trim` on the ASCII
whitespace characters relevant to this code base. -/
def isWsChar (c : Char) : Bool :=
  c == ' ' || c == '\t' || c == '\n' || c == '\r'

/-- Remove leading and trailing whitespace from a character list. -/
def trimChars (cs : List Char) : List Char :=
  ((cs.dropWhile isWsChar).reverse.dropWhile isWsChar).reverse

/-- Embedding of JavaScript `s.trim()`. -/
def strTrim (s : String) : String :=
  String.mk (trimChars s.toList)

/-- Embedding of JavaScript `s.toUpperCase()` (ASCII data). -/
def strUpper (s : String) : String :=
  String.mk (s.toList.map Char.toUpper)

/-- Embedding of JavaScript `s.endsWith(suffix)`. -/
def strEndsWith (s suffix : String) : Bool :=
  suffix.toList.isSuffixOf s.toList

/-- Lexicographic comparison of character lists by code point: the order the
default JavaScript array sort induces on these ASCII file names. -/
def strLeAux : List Char → List Char → Bool
  | [], _ => true
  | _ :: _, [] => false
  | a :: as, b :: bs => if a = b then strLeAux as bs else decide (a < b)

/-- `s` sorts no later than `t` under the JavaScript default comparator. -/
def strLe (s t : String) : Bool :=
  strLeAux s.toList t.toList

/-- Stable insertion step of the sort embedding `Array.prototype.sort()`. -/
def insertSorted (x : String) : List String → List String
  | [] => [x]
  | y :: ys => if strLe x y then x :: y :: ys else y :: insertSorted x ys

/-- Embedding of the `.sort()` call in `getMigrationFiles`. -/
def sortStrings : List String → List String
  | [] => []
  | x :: xs => insertSorted x (sortStrings xs)

/-- Embedding of JavaScript `s.replace(pat, '')` with a plain-string pattern:
only the FIRST occurrence of `pat` is removed. -/
def listReplaceFirst : List Char → List Char → List Char
  | [], _ => []
  | c :: rest, pat =>
    if pat.isPrefixOf (c :: rest) then (c :: rest).drop pat.length
    else c :: listReplaceFirst rest pat

/-- `migrationFile.replace('.sql', '')`, the version computation used in
`runMigration`, `migrateUp`, `migrateDown` and `migrationStatus`. -/
def versionOf (migrationFile : String) : String :=
  String.mk (listReplaceFirst migrationFile.toList ".sql".toList)

/-- Does `pat` occur as a contiguous substring of `cs`? -/
def containsSub (pat : List Char) : List Char → Bool
  | [] => pat.isPrefixOf ([] : List Char)
  | c :: rest => pat.isPrefixOf (c :: rest) || containsSub pat rest

def splitLinesAux : List Char → List Char → List String
  | [], acc => [String.mk acc.reverse]
  | '\n' :: rest, acc => String.mk acc.reverse :: splitLinesAux rest []
  | c :: rest, acc => splitLinesAux rest (c :: acc)

/-- Embedding of JavaScript `s.split('\n')`. -/
def splitLines (s : String) : List String :=
  splitLinesAux s.toList []

/-- Inverse direction: how the model renders the `SELECT version` output. -/
def joinLines : List String → String
  | [] => ""
  | [s] => s
  | s :: rest => s ++ "\n" ++ joinLines rest

/-- One attempted match of the case-insensitive "-- UP" or "-- DOWN" regex
alternation at the head of `cs`:
on success, the captured tag characters and the remainder after the match.
As in the regex, the `UP` alternative is tried first. -/
def tagAt : List Char → Option (List Char × List Char)
  | '-' :: '-' :: ' ' :: u :: p :: rest =>
    if u.toLower == 'u' && p.toLower == 'p' then some ([u, p], rest)
    else
      match u :: p :: rest with
      | d :: o :: w :: n :: rest2 =>
        if d.toLower == 'd' && o.toLower == 'o' && w.toLower == 'w' &&
            n.toLower == 'n' then
          some ([d, o, w, n], rest2)
        else none
      | _ => none
  | _ => none

/-- Fuel-driven scanner embedding the `content.split` call on the
case-insensitive "-- UP" / "-- DOWN" capture-group regex: the result
alternates plain segments with the captured marker tags, exactly as JavaScript
`split` with a capture group does.  The fuel starts at the character count,
which the scan never exceeds (every recursive call consumes at least one
character). -/
def splitUpDownAux : Nat → List Char → List Char → List String
  | _, [], seg => [String.mk seg.reverse]
  | 0, cs, seg => [String.mk (seg.reverse ++ cs)]
  | fuel + 1, c :: cs, seg =>
    match tagAt (c :: cs) with
    | some (tag, rest) =>
      String.mk seg.reverse :: String.mk tag :: splitUpDownAux fuel rest []
    | none => splitUpDownAux fuel cs (c :: seg)

/-- The marker split of `runMigration`, applied to a whole file content. -/
def splitUpDown (content : String) : List String :=
  splitUpDownAux content.toList.length content.toList []

/-- Is an `-- UP` marker (case-insensitive) present at the head position? -/
def upMarkerAt : List Char → Bool
  | '-' :: '-' :: ' ' :: u :: p :: _ => u.toLower == 'u' && p.toLower == 'p'
  | _ => false

/-- Is an `-- DOWN` marker (case-insensitive) present at the head position? -/
def downMarkerAt : List Char → Bool
  | '-' :: '-' :: ' ' :: d :: o :: w :: n :: _ =>
    d.toLower == 'd' && o.toLower == 'o' && w.toLower == 'w' && n.toLower == 'n'
  | _ => false

def hasMarkerAux (check : List Char → Bool) : List Char → Bool
  | [] => check []
  | c :: rest => check (c :: rest) || hasMarkerAux check rest

/-- The file content contains an explicit `-- UP` marker somewhere. -/
def hasUpMarker (content : String) : Bool :=
  hasMarkerAux upMarkerAt content.toList

/-- The file content contains an explicit `-- DOWN` marker somewhere. -/
def hasDownMarker (content : String) : Bool :=
  hasMarkerAux downMarkerAt content.toList

/-- The `part.trim().toUpperCase() === tag` test of the section extraction. -/
def isTagPart (tag : String) (part : String) : Bool :=
  strUpper (strTrim part) == tag

/-- The distinct psql invocations `db.ts` issues through `runCommand` in the
migration paths: create the ledger table, list applied versions, run a SQL
file, insert / verify / delete a ledger row. -/
inductive Cmd where
  | ensureTable
  | selectApplied
  | execSql (sql : String)
  | insertVersion (v : String)
  | verifyCount (v : String)
  | deleteVersion (v : String)
deriving DecidableEq, Repr

/-- The four custom error classes of `customErrors.ts`, plus a constructor
for arbitrary non-custom JavaScript exceptions.  The modelled operations
never produce `jsError`: every failure they raise is wrapped in one of the
custom classes, which is exactly what decides claim C1. -/
inductive Err where
  | databaseError (msg : String)
  | notFoundError (msg : String)
  | validationError (msg : String)
  | configurationError (msg : String)
  | jsError (msg : String)
deriving DecidableEq, Repr

def errMessage : Err → String
  | .databaseError m => m
  | .notFoundError m => m
  | .validationError m => m
  | .configurationError m => m
  | .jsError m => m

/-- `isCustomError` from `db.ts`: instance test against the four custom
error classes. -/
def isCustomError : Err → Bool
  | .jsError _ => false
  | _ => true

inductive Direction where
  | up
  | down
deriving DecidableEq, Repr

/-- `direction.toUpperCase()` for the error messages. -/
def dirUpper : Direction → String
  | .up => "UP"
  | .down => "DOWN"

/-- Observable side effects of the migration routines: writing the scoped
temporary SQL file, one external command invocation, removing the temp
file. -/
inductive Step where
  | writeTemp (sql : String)
  | cmd (c : Cmd)
  | removeTemp
deriving DecidableEq, Repr

/-- The `schema_migrations` table: the version strings of applied
migrations, in row-insertion order (the SELECT sorts them). -/
structure DB where
  ledger : List String
deriving DecidableEq, Repr

/-- The migrations directory: the raw listing and the file contents
(`none` means the file does not exist). -/
structure FS where
  dirListing : List String
  contents : String → Option String

/-- Effect of a successful command on the ledger: the INSERT uses
`ON CONFLICT (version) DO NOTHING`, the DELETE removes by version. -/
def applyCmd : Cmd → DB → DB
  | .insertVersion v, db => if db.ledger.contains v then db else ⟨db.ledger ++ [v]⟩
  | .deleteVersion v, db => ⟨db.ledger.filter (fun w => !(w == v))⟩
  | _, db => db

/-- The stdout the model gives the `SELECT version ... ORDER BY version`
query: the ledger rows sorted, one per line (psql's padding is immaterial
because the caller trims every line). -/
def selectOutput (db : DB) : String :=
  joinLines (sortStrings db.ledger)

def cmdOutput : Cmd → DB → String
  | .selectApplied, db => selectOutput db
  | .verifyCount v, db => toString ((db.ledger.filter (fun w => w == v)).length)
  | _, _ => ""

/-- `runCommand`: one external process per call; a non-zero exit rejects with
`DatabaseError('Command execution failed: ...')` (the underlying exec message
is immaterial here and omitted). -/
def runCommand (o : Cmd → Bool) (c : Cmd) (db : DB) :
    Except Err String × DB × List Step :=
  if o c then (.ok (cmdOutput c db), applyCmd c db, [Step.cmd c])
  else (.error (.databaseError "Command execution failed"), db, [Step.cmd c])

def isExecStep : Step → Bool
  | .cmd (.execSql _) => true
  | _ => false

/-- Number of SQL-file executions in a step trace. -/
def countExec (t : List Step) : Nat := (t.filter isExecStep).length

def isCmdStep : Step → Bool
  | .cmd _ => true
  | _ => false

/-- Number of Command Executor invocations in a step trace. -/
def countCmds (t : List Step) : Nat := (t.filter isCmdStep).length

def isVerifyStep : Step → Bool
  | .cmd (.verifyCount _) => true
  | _ => false

/-- Number of ledger-verification queries in a step trace. -/
def countVerify (t : List Step) : Nat := (t.filter isVerifyStep).length

/-- The output parse in `getAppliedMigrations`:
`result.split('\n').filter(line => line.trim()).map(line => line.trim())`. -/
def parseAppliedOutput (s : String) : List String :=
  ((splitLines s).filter (fun line => !(strTrim line == ""))).map strTrim

/-- `ensureMigrationsTable`: run the CREATE TABLE IF NOT EXISTS command and
wrap any failure in a fresh `DatabaseError`. -/
def ensureMigrationsTable (o : Cmd → Bool) (db : DB) :
    Except Err Unit × DB × List Step :=
  match runCommand o .ensureTable db with
  | (.ok _, db1, t1) => (.ok (), db1, t1)
  | (.error e, db1, t1) =>
    (.error (.databaseError ("Failed to ensure migrations table: " ++ errMessage e)),
      db1, t1)

/-- `getAppliedMigrations`: ensure the ledger table, query applied versions,
parse the output.  The catch block re-throws custom errors and only degrades
to `[]` for non-custom ones. -/
def getAppliedMigrations (o : Cmd → Bool) (db : DB) :
    Except Err (List String) × DB × List Step :=
  match ensureMigrationsTable o db with
  | (.error e, db1, t1) =>
    ((if isCustomError e then .error e else .ok []), db1, t1)
  | (.ok _, db1, t1) =>
    match runCommand o .selectApplied db1 with
    | (.error e, db2, t2) =>
      ((if isCustomError e then .error e else .ok []), db2, t1 ++ t2)
    | (.ok out, db2, t2) => (.ok (parseAppliedOutput out), db2, t1 ++ t2)

/-- `getMigrationFiles`: directory listing filtered to `.sql` files and
sorted (directory-creation and read failures are outside the model). -/
def getMigrationFiles (fs : FS) : List String :=
  sortStrings (fs.dirListing.filter (fun f => strEndsWith f ".sql"))

/-- The three external commands a successful UP run of migration `m` with
section `s` issues after the temp write all succeed under the oracle: the
SQL execution, the ledger INSERT and the verification SELECT. -/
def upCmdsOk (o : Cmd → Bool) (m s : String) : Bool :=
  o (.execSql (strTrim s)) && o (.insertVersion (versionOf m)) &&
    o (.verifyCount (versionOf m))

/-- The pending set of `migrateUp`: all migration files whose version the
applied list does not include. -/
def pendingOf (fs : FS) (applied : List String) : List String :=
  (getMigrationFiles fs).filter (fun m => !(applied.contains (versionOf m)))

/-- The section selection of `runMigration`: split on the markers, find the
first part that trims and uppercases to the tag, take the NEXT part.  For
`up`, a missing tag falls back to the whole content; reading past the end of
the parts array (JavaScript `undefined`) is `ok none`. -/
def extractSection (migrationFile content : String) :
    Direction → Except Err (Option String)
  | .up =>
    match (splitUpDown content).findIdx? (isTagPart "UP") with
    | none => .ok (some content)
    | some i => .ok ((splitUpDown content)[i + 1]?)
  | .down =>
    match (splitUpDown content).findIdx? (isTagPart "DOWN") with
    | none =>
      .error (.validationError ("No DOWN section found in migration " ++ migrationFile))
    | some i => .ok ((splitUpDown content)[i + 1]?)

/-- The catch block of `runMigration`: re-throw custom errors, wrap anything
else in a fresh `DatabaseError`. -/
def migCatch (e : Err) : Err :=
  if isCustomError e then e
  else .databaseError ("Migration execution failed: " ++ errMessage e)

/-- The execution phase of `runMigration` once a non-empty SQL section is in
hand: write the temp file, run the SQL, then record (up: INSERT then a
verification SELECT) or remove (down: DELETE) the ledger row; the temp file
is removed on every exit path. -/
def runMigrationExec (o : Cmd → Bool) (migrationFile : String)
    (direction : Direction) (sqlTrimmed : String) (db : DB) :
    Except Err Unit × DB × List Step :=
  let version := versionOf migrationFile
  match runCommand o (.execSql sqlTrimmed) db with
  | (.error e, db1, t1) =>
    (.error (migCatch e), db1, Step.writeTemp sqlTrimmed :: t1 ++ [Step.removeTemp])
  | (.ok _, db1, t1) =>
    match direction with
    | .up =>
      match runCommand o (.insertVersion version) db1 with
      | (.error e, db2, t2) =>
        (.error (migCatch e), db2,
          Step.writeTemp sqlTrimmed :: t1 ++ t2 ++ [Step.removeTemp])
      | (.ok _, db2, t2) =>
        match runCommand o (.verifyCount version) db2 with
        | (.error e, db3, t3) =>
          (.error (migCatch e), db3,
            Step.writeTemp sqlTrimmed :: t1 ++ t2 ++ t3 ++ [Step.removeTemp])
        | (.ok _, db3, t3) =>
          (.ok (), db3,
            Step.writeTemp sqlTrimmed :: t1 ++ t2 ++ t3 ++ [Step.removeTemp])
    | .down =>
      match runCommand o (.deleteVersion version) db1 with
      | (.error e, db2, t2) =>
        (.error (migCatch e), db2,
          Step.writeTemp sqlTrimmed :: t1 ++ t2 ++ [Step.removeTemp])
      | (.ok _, db2, t2) =>
        (.ok (), db2, Step.writeTemp sqlTrimmed :: t1 ++ t2 ++ [Step.removeTemp])

/-- `runMigration(migrationFile, direction)`: existence check, read, section
extraction, the `!sql || !sql.trim()` validation, then the execution phase
on `sql.trim()`. -/
def runMigration (o : Cmd → Bool) (fs : FS) (migrationFile : String)
    (direction : Direction) (db : DB) : Except Err Unit × DB × List Step :=
  match fs.contents migrationFile with
  | none => (.error (.notFoundError ("Migration file: " ++ migrationFile)), db, [])
  | some content =>
    match extractSection migrationFile content direction with
    | .error e => (.error e, db, [])
    | .ok none =>
      (.error (.validationError
        ("No " ++ dirUpper direction ++ " SQL found in migration " ++ migrationFile)),
        db, [])
    | .ok (some sql) =>
      if strTrim sql == "" then
        (.error (.validationError
          ("No " ++ dirUpper direction ++ " SQL found in migration " ++ migrationFile)),
          db, [])
      else
        runMigrationExec o migrationFile direction (strTrim sql) db

/-- The `for (const migration of pendingMigrations)` loop of `migrateUp`:
apply each in order, aborting on the first failure (the thrown error leaves
the loop and propagates). -/
def runPending (o : Cmd → Bool) (fs : FS) :
    List String → DB → Except Err Unit × DB × List Step
  | [], db => (.ok (), db, [])
  | m :: rest, db =>
    match runMigration o fs m .up db with
    | (.error e, db1, t1) => (.error e, db1, t1)
    | (.ok _, db1, t1) =>
      match runPending o fs rest db1 with
      | (r, db2, t2) => (r, db2, t1 ++ t2)

/-- `migrateUp`: list files, list applied versions, filter to the pending
set, early-return on empty, else run them in order. -/
def migrateUp (o : Cmd → Bool) (fs : FS) (db : DB) :
    Except Err Unit × DB × List Step :=
  match getAppliedMigrations o db with
  | (.error e, db1, t1) => (.error e, db1, t1)
  | (.ok applied, db1, t1) =>
    if pendingOf fs applied = [] then (.ok (), db1, t1)
    else
      match runPending o fs (pendingOf fs applied) db1 with
      | (r, db2, t2) => (r, db2, t1 ++ t2)

/-- `migrateDown`: no-op on an empty applied list, otherwise locate the file
of the last (greatest, since the SELECT sorts) applied version and roll it
back; a missing file is a `NotFoundError`. -/
def migrateDown (o : Cmd → Bool) (fs : FS) (db : DB) :
    Except Err Unit × DB × List Step :=
  match getAppliedMigrations o db with
  | (.error e, db1, t1) => (.error e, db1, t1)
  | (.ok applied, db1, t1) =>
    match applied.getLast? with
    | none => (.ok (), db1, t1)
    | some lastAppliedVersion =>
      let allMigrationFiles := getMigrationFiles fs
      match allMigrationFiles.find? (fun f => versionOf f == lastAppliedVersion) with
      | none =>
        (.error (.notFoundError ("Migration file for version: " ++ lastAppliedVersion)),
          db1, t1)
      | some lastMigrationFile =>
        match runMigration o fs lastMigrationFile .down db1 with
        | (r, db2, t2) => (r, db2, t1 ++ t2)

/-- `migrationStatus`: the status rows the source logs and prints, as
`(file, version, applied)` triples (the printed status string is a direct
function of the `applied` flag). -/
def migrationStatus (o : Cmd → Bool) (fs : FS) (db : DB) :
    Except Err (List (String × String × Bool)) × DB × List Step :=
  let allMigrations := getMigrationFiles fs
  match getAppliedMigrations o db with
  | (.error e, db1, t1) => (.error e, db1, t1)
  | (.ok applied, db1, t1) =>
    if allMigrations = [] then (.ok [], db1, t1)
    else
      (.ok (allMigrations.map (fun m =>
        (m, versionOf m, applied.contains (versionOf m)))), db1, t1)

/-- The file `m` exists and its UP section extracts to `s`, which is not
whitespace-only: the precondition under which `runMigration(m, 'up')`
reaches the execution phase. -/
def extractsToUp (fs : FS) (m s : String) : Bool :=
  match fs.contents m with
  | none => false
  | some content =>
    match extractSection m content .up with
    | .ok (some t) => t == s && !(strTrim s == "")
    | _ => false

/-- The file `m` exists and its DOWN section extracts to `s`, which is not
whitespace-only. -/
def extractsToDown (fs : FS) (m s : String) : Bool :=
  match fs.contents m with
  | none => false
  | some content =>
    match extractSection m content .down with
    | .ok (some t) => t == s && !(strTrim s == "")
    | _ => false

/-- The step trace of one successful UP migration whose section is `s`:
temp write, SQL execution, ledger INSERT, verification SELECT, temp
removal. -/
def upTrace (m s : String) : List Step :=
  [Step.writeTemp (strTrim s), Step.cmd (.execSql (strTrim s)),
   Step.cmd (.insertVersion (versionOf m)), Step.cmd (.verifyCount (versionOf m)),
   Step.removeTemp]

/-- Consecutive entries are in ascending order under the JavaScript string
comparator. -/
def StrSorted (l : List String) : Prop :=
  l.Pairwise (fun a b => strLe a b = true)

/-- Oracle under which every external command succeeds. -/
def oAll : Cmd → Bool := fun _ => true

/-- Oracle failing exactly the CREATE TABLE command. -/
def oFailEnsure : Cmd → Bool
  | .ensureTable => false
  | _ => true

/-- Oracle failing exactly the SELECT of applied versions. -/
def oFailSelect : Cmd → Bool
  | .selectApplied => false
  | _ => true

/-- Oracle failing exactly the post-insert verification query. -/
def oFailVerify : Cmd → Bool
  | .verifyCount _ => false
  | _ => true

/-- Oracle failing exactly the execution of the SQL text "B1" (the UP
section of the second migration of `fsAB`); every other command succeeds. -/
def oFailB : Cmd → Bool
  | .execSql sql => !(sql == "B1")
  | _ => true

/-- Two pending migration files, listed out of creation order on disk. -/
def fsAB : FS :=
  ⟨["b.sql", "a.sql"], fun f =>
    if f == "a.sql" then some "-- UP\nA1" else
    if f == "b.sql" then some "-- UP\nB1" else none⟩

/-- The UP sections of the files of `fsAB`. -/
def sqlsAB : String → String := fun f => if f == "a.sql" then "\nA1" else "\nB1"

/-- A single marker-free migration file (whole file is the UP section). -/
def fsA1 : FS := ⟨["a.sql"], fun f => if f == "a.sql" then some "X1" else none⟩

/-- Two migrations with UP and DOWN sections. -/
def fs3 : FS :=
  ⟨["a.sql", "b.sql"], fun f =>
    if f == "a.sql" then some "-- UP\nA1\n-- DOWN\nDA1" else
    if f == "b.sql" then some "-- UP\nB1\n-- DOWN\nDB1" else none⟩

/-- A file with no DOWN marker whose body has a stray line reading "DOWN"
between two UP markers. -/
def fsC6 : FS :=
  ⟨["m.sql"], fun f => if f == "m.sql" then some "-- UP\nDOWN\n-- UP\nX1" else none⟩

/-- An UP-only migration file. -/
def fsUpOnly : FS :=
  ⟨["m.sql"], fun f => if f == "m.sql" then some "-- UP\nX1" else none⟩

/-- A migration whose UP section is whitespace-only. -/
def fsWs : FS :=
  ⟨["m.sql"], fun f => if f == "m.sql" then some "-- UP\n   \n-- DOWN\nD1" else none⟩

/-- A file whose entire content is the bare word "up" (no marker at all). -/
def fsUpWord : FS :=
  ⟨["m.sql"], fun f => if f == "m.sql" then some "up" else none⟩

theorem getApplied_ok (o : Cmd → Bool) (db : DB)
    (hE : o .ensureTable = true) (hS : o .selectApplied = true) :
    getAppliedMigrations o db =
      (.ok (parseAppliedOutput (selectOutput db)), db,
        [Step.cmd .ensureTable, Step.cmd .selectApplied]) := by
  unfold getAppliedMigrations ensureMigrationsTable runCommand
  simp [hE, hS, applyCmd, cmdOutput]

theorem migrateUp_eq (o : Cmd → Bool) (fs : FS) (db : DB)
    (hE : o .ensureTable = true) (hS : o .selectApplied = true) :
    migrateUp o fs db =
      (if pendingOf fs (parseAppliedOutput (selectOutput db)) = [] then
        (.ok (), db, [Step.cmd .ensureTable, Step.cmd .selectApplied])
      else
        match runPending o fs (pendingOf fs (parseAppliedOutput (selectOutput db))) db with
        | (r, db2, t2) =>
          (r, db2, Step.cmd .ensureTable :: Step.cmd .selectApplied :: t2)) := by
  unfold migrateUp
  rw [getApplied_ok o db hE hS]
  rfl

theorem migrateDown_eq (o : Cmd → Bool) (fs : FS) (db : DB)
    (hE : o .ensureTable = true) (hS : o .selectApplied = true) :
    migrateDown o fs db =
      (match (parseAppliedOutput (selectOutput db)).getLast? with
      | none => (.ok (), db, [Step.cmd .ensureTable, Step.cmd .selectApplied])
      | some v =>
        match (getMigrationFiles fs).find? (fun f => versionOf f == v) with
        | none =>
          (.error (.notFoundError ("Migration file for version: " ++ v)), db,
            [Step.cmd .ensureTable, Step.cmd .selectApplied])
        | some file =>
          match runMigration o fs file .down db with
          | (r, db2, t2) =>
            (r, db2, Step.cmd .ensureTable :: Step.cmd .selectApplied :: t2)) := by
  unfold migrateDown
  rw [getApplied_ok o db hE hS]
  rfl

theorem runMigration_notFound (o : Cmd → Bool) (fs : FS) (m : String)
    (d : Direction) (db : DB) (h : fs.contents m = none) :
    runMigration o fs m d db =
      (.error (.notFoundError ("Migration file: " ++ m)), db, []) := by
  unfold runMigration; rw [h]

theorem runMigration_up_exec (o : Cmd → Bool) (fs : FS) (m s : String) (db : DB)
    (hx : extractsToUp fs m s = true) :
    runMigration o fs m .up db = runMigrationExec o m .up (strTrim s) db := by
  unfold extractsToUp at hx
  cases hc : fs.contents m with
  | none => rw [hc] at hx; cases hx
  | some content =>
    rw [hc] at hx
    have hx' : (match extractSection m content Direction.up with
      | Except.ok (some t) => t == s && !(strTrim s == "")
      | _ => false) = true := hx
    cases he : extractSection m content Direction.up with
    | error e => rw [he] at hx'; cases hx'
    | ok so =>
      cases so with
      | none => rw [he] at hx'; cases hx'
      | some t =>
        rw [he] at hx'
        have hts : t = s := eq_of_beq (Bool.and_eq_true .. |>.mp hx').1
        have hne : (strTrim s == "") = false :=
          Bool.not_eq_true' .. |>.mp (Bool.and_eq_true .. |>.mp hx').2
        subst hts
        unfold runMigration
        simp [hc, he, hne]

theorem runMigration_down_exec (o : Cmd → Bool) (fs : FS) (m s : String) (db : DB)
    (hx : extractsToDown fs m s = true) :
    runMigration o fs m .down db = runMigrationExec o m .down (strTrim s) db := by
  unfold extractsToDown at hx
  cases hc : fs.contents m with
  | none => rw [hc] at hx; cases hx
  | some content =>
    rw [hc] at hx
    have hx' : (match extractSection m content Direction.down with
      | Except.ok (some t) => t == s && !(strTrim s == "")
      | _ => false) = true := hx
    cases he : extractSection m content Direction.down with
    | error e => rw [he] at hx'; cases hx'
    | ok so =>
      cases so with
      | none => rw [he] at hx'; cases hx'
      | some t =>
        rw [he] at hx'
        have hts : t = s := eq_of_beq (Bool.and_eq_true .. |>.mp hx').1
        have hne : (strTrim s == "") = false :=
          Bool.not_eq_true' .. |>.mp (Bool.and_eq_true .. |>.mp hx').2
        subst hts
        unfold runMigration
        simp [hc, he, hne]

theorem runMigrationExec_up_ok (o : Cmd → Bool) (m sq : String) (db : DB)
    (h1 : o (.execSql sq) = true) (h2 : o (.insertVersion (versionOf m)) = true)
    (h3 : o (.verifyCount (versionOf m)) = true) :
    runMigrationExec o m .up sq db =
      (.ok (), applyCmd (.insertVersion (versionOf m)) db,
        [Step.writeTemp sq, Step.cmd (.execSql sq),
         Step.cmd (.insertVersion (versionOf m)),
         Step.cmd (.verifyCount (versionOf m)), Step.removeTemp]) := by
  unfold runMigrationExec runCommand
  simp [h1, h2, h3, applyCmd]

theorem runMigrationExec_up_verify_fail (o : Cmd → Bool) (m sq : String) (db : DB)
    (h1 : o (.execSql sq) = true) (h2 : o (.insertVersion (versionOf m)) = true)
    (h3 : o (.verifyCount (versionOf m)) = false) :
    runMigrationExec o m .up sq db =
      (.error (.databaseError "Command execution failed"),
       applyCmd (.insertVersion (versionOf m)) db,
        [Step.writeTemp sq, Step.cmd (.execSql sq),
         Step.cmd (.insertVersion (versionOf m)),
         Step.cmd (.verifyCount (versionOf m)), Step.removeTemp]) := by
  unfold runMigrationExec runCommand
  simp [h1, h2, h3, applyCmd, migCatch, isCustomError]

theorem runMigrationExec_down_ok (o : Cmd → Bool) (m sq : String) (db : DB)
    (h1 : o (.execSql sq) = true) (h2 : o (.deleteVersion (versionOf m)) = true) :
    runMigrationExec o m .down sq db =
      (.ok (), ⟨db.ledger.filter (fun w => !(w == versionOf m))⟩,
        [Step.writeTemp sq, Step.cmd (.execSql sq),
         Step.cmd (.deleteVersion (versionOf m)), Step.removeTemp]) := by
  unfold runMigrationExec runCommand
  simp [h1, h2, applyCmd]

/-- C1: the claim as stated is false.  With an executor that fails the
ledger-table creation, `getAppliedMigrations` does NOT return the empty
sequence: the failure is a custom `DatabaseError`, which the catch block
re-throws. -/
theorem getApplied_failure_counterexample :
    (getAppliedMigrations oFailEnsure ⟨[]⟩).1 =
      .error (.databaseError "Failed to ensure migrations table: Command execution failed") ∧
    ¬ (getAppliedMigrations oFailEnsure ⟨[]⟩).1 = .ok [] :=
  ⟨rfl, fun h => nomatch h⟩

/-- C1 (amended): any failure of the ledger-table command or of the
applied-versions query makes `getAppliedMigrations` propagate a
`DatabaseError`; the `return []` branch is reserved for non-custom errors,
which these paths never produce. -/
theorem getApplied_failure_propagates (o : Cmd → Bool) (db : DB)
    (h : o .ensureTable = false ∨ o .selectApplied = false) :
    ∃ msg, (getAppliedMigrations o db).1 = .error (.databaseError msg) := by
  unfold getAppliedMigrations ensureMigrationsTable runCommand
  rcases h with h | h
  · simp [h, isCustomError]
  · cases hE : o .ensureTable with
    | false => simp [hE, isCustomError]
    | true => simp [hE, h, isCustomError]

theorem getApplied_failure_propagates_witness :
    (oFailEnsure Cmd.ensureTable = false ∨ oFailEnsure Cmd.selectApplied = false) ∧
    ∃ msg, (getAppliedMigrations oFailEnsure ⟨[]⟩).1 = .error (.databaseError msg) :=
  ⟨Or.inl rfl, getApplied_failure_propagates oFailEnsure ⟨[]⟩ (Or.inl rfl)⟩

/-- C4: the claim as stated is false.  When the verification re-query after
a successful UP execution and ledger INSERT fails, `runMigration` does not
treat the migration as successfully applied: the verification error (a
custom `DatabaseError`) is re-thrown, so the operation fails even though
the version was recorded. -/
theorem runMigration_verify_failure_counterexample :
    (runMigration oFailVerify fsA1 "a.sql" .up ⟨[]⟩).1 =
      .error (.databaseError "Command execution failed") ∧
    (runMigration oFailVerify fsA1 "a.sql" .up ⟨[]⟩).2.1.ledger = ["a"] ∧
    ¬ (runMigration oFailVerify fsA1 "a.sql" .up ⟨[]⟩).1 = .ok () :=
  ⟨rfl, rfl, fun h => nomatch h⟩

/-- C4 (amended): after a successful UP execution and ledger record, a
failure of the verification re-query propagates out of `runMigration` as a
`DatabaseError`.  The version stays recorded in the ledger and the
verification is attempted exactly once (no retry), but the operation fails
rather than reporting success. -/
theorem runMigration_verify_error_propagates (o : Cmd → Bool) (fs : FS)
    (m s : String) (db : DB)
    (hx : extractsToUp fs m s = true)
    (h1 : o (.execSql (strTrim s)) = true)
    (h2 : o (.insertVersion (versionOf m)) = true)
    (h3 : o (.verifyCount (versionOf m)) = false) :
    (runMigration o fs m .up db).1 = .error (.databaseError "Command execution failed") ∧
    versionOf m ∈ (runMigration o fs m .up db).2.1.ledger ∧
    countVerify (runMigration o fs m .up db).2.2 = 1 := by
  rw [runMigration_up_exec o fs m s db hx,
    runMigrationExec_up_verify_fail o m (strTrim s) db h1 h2 h3]
  refine ⟨rfl, ?_, ?_⟩
  · simp only [applyCmd]
    split_ifs with hmem
    · exact List.elem_iff.mp hmem
    · simp
  · rfl

theorem runMigration_verify_error_propagates_witness :
    (runMigration oFailVerify fsA1 "a.sql" .up ⟨[]⟩).1 =
      .error (.databaseError "Command execution failed") ∧
    versionOf "a.sql" ∈ (runMigration oFailVerify fsA1 "a.sql" .up ⟨[]⟩).2.1.ledger ∧
    countVerify (runMigration oFailVerify fsA1 "a.sql" .up ⟨[]⟩).2.2 = 1 :=
  runMigration_verify_error_propagates oFailVerify fsA1 "a.sql" "X1" ⟨[]⟩
    (by decide) rfl rfl rfl

/-- C5: the claim as stated is false.  With every file already applied,
`migrateUp` exits normally but still performs two Command Executor
invocations: the ledger-table creation and the applied-versions query. -/
theorem migrateUp_empty_pending_counterexample :
    (migrateUp oAll fsA1 ⟨["a"]⟩).1 = .ok () ∧
    countCmds (migrateUp oAll fsA1 ⟨["a"]⟩).2.2 = 2 ∧
    ¬ countCmds (migrateUp oAll fsA1 ⟨["a"]⟩).2.2 = 0 :=
  ⟨rfl, rfl, by decide⟩

/-- C5 (amended): when the pending set is empty, `migrateUp` exits normally
and its only Command Executor invocations are the two ledger-read commands;
in particular no migration SQL is executed. -/
theorem migrateUp_no_pending (o : Cmd → Bool) (fs : FS) (db : DB)
    (hE : o .ensureTable = true) (hS : o .selectApplied = true)
    (hp : pendingOf fs (parseAppliedOutput (selectOutput db)) = []) :
    migrateUp o fs db = (.ok (), db, [Step.cmd .ensureTable, Step.cmd .selectApplied]) := by
  rw [migrateUp_eq o fs db hE hS, hp]
  rfl

theorem migrateUp_no_pending_witness :
    migrateUp oAll fsA1 ⟨["a"]⟩ =
      (.ok (), ⟨["a"]⟩, [Step.cmd .ensureTable, Step.cmd .selectApplied]) :=
  migrateUp_no_pending oAll fsA1 ⟨["a"]⟩ rfl rfl (by decide)

/-- C6: the claim as stated is false.  This file contains no DOWN marker at
all, yet `runMigration(..., 'down')` does not fail with the missing-section
error: a plain text part of the marker split trims to "DOWN", is taken for
the marker, and the following captured "UP" tag is executed as SQL. -/
theorem runMigration_down_stray_counterexample :
    hasDownMarker "-- UP\nDOWN\n-- UP\nX1" = false ∧
    (runMigration oAll fsC6 "m.sql" .down ⟨[]⟩).1 = .ok () ∧
    countExec (runMigration oAll fsC6 "m.sql" .down ⟨[]⟩).2.2 = 1 :=
  ⟨rfl, rfl, rfl⟩

/-- C6 (amended): `runMigration(file, 'down')` fails with the
missing-section `ValidationError`, without writing a temp file or executing
any SQL, exactly when no part of the marker-split content trims
(case-insensitively) to "DOWN".  A file without a DOWN marker escapes the
error when a stray non-marker part trims to "DOWN". -/
theorem runMigration_down_missing_section (o : Cmd → Bool) (fs : FS)
    (m content : String) (db : DB)
    (hc : fs.contents m = some content)
    (hnone : (splitUpDown content).findIdx? (isTagPart "DOWN") = none) :
    runMigration o fs m .down db =
      (.error (.validationError ("No DOWN section found in migration " ++ m)), db, []) := by
  have hex : extractSection m content Direction.down =
      .error (.validationError ("No DOWN section found in migration " ++ m)) := by
    simp [extractSection, hnone]
  unfold runMigration
  rw [hc]
  simp [hex]

theorem runMigration_down_missing_section_witness :
    runMigration oAll fsUpOnly "m.sql" .down ⟨[]⟩ =
      (.error (.validationError "No DOWN section found in migration m.sql"), ⟨[]⟩, []) :=
  runMigration_down_missing_section oAll fsUpOnly "m.sql" "-- UP\nX1" ⟨[]⟩
    rfl (by decide)

/-- C7: an extracted section that is empty, whitespace-only, or an
out-of-bounds read makes `runMigration` fail with the empty-section
`ValidationError` before any side effect: no temp file is written and no
Command Executor invocation happens (the step trace is empty). -/
theorem runMigration_empty_section (o : Cmd → Bool) (fs : FS)
    (m content : String) (d : Direction) (db : DB)
    (hc : fs.contents m = some content)
    (hx : extractSection m content d = .ok none ∨
      ∃ s, extractSection m content d = .ok (some s) ∧ strTrim s = "") :
    runMigration o fs m d db =
      (.error (.validationError
        ("No " ++ dirUpper d ++ " SQL found in migration " ++ m)), db, []) := by
  unfold runMigration
  rw [hc]
  rcases hx with hx | ⟨s, hx, hs⟩
  · simp [hx]
  · simp [hx, hs]

theorem runMigration_empty_section_witness :
    runMigration oAll fsWs "m.sql" .up ⟨[]⟩ =
      (.error (.validationError "No UP SQL found in migration m.sql"), ⟨[]⟩, []) :=
  runMigration_empty_section oAll fsWs "m.sql" "-- UP\n   \n-- DOWN\nD1" .up ⟨[]⟩
    rfl (Or.inr ⟨"\n   \n", rfl, rfl⟩)

/-- C8: the claim as stated is false.  The file whose whole content is the
bare word "up" has no explicit UP marker, yet extracting its UP section does
not yield the entire file content: the content itself trims to "UP", is
mistaken for the marker, the read past the end of the parts array yields
JavaScript undefined, and `migrateUp` then fails with the empty-section
error instead of executing the file. -/
theorem extract_up_fallback_counterexample :
    hasUpMarker "up" = false ∧
    extractSection "m.sql" "up" Direction.up = .ok none ∧
    ¬ extractSection "m.sql" "up" Direction.up = .ok (some "up") ∧
    (runMigration oAll fsUpWord "m.sql" .up ⟨[]⟩).1 =
      .error (.validationError "No UP SQL found in migration m.sql") :=
  ⟨rfl, rfl,
    fun h => by
      rw [show extractSection "m.sql" "up" Direction.up = .ok none from rfl] at h
      simp at h,
    rfl⟩

/-- C8 (amended): whenever no part of the marker-split content trims
(case-insensitively) to "UP" — in particular for marker-free files whose
content does not itself trim to "UP" — the whole file content is used as
the UP section and is what `runMigration` executes. -/
theorem runMigration_up_whole_file (o : Cmd → Bool) (fs : FS)
    (m content : String) (db : DB)
    (hAll : ∀ c, o c = true)
    (hc : fs.contents m = some content)
    (hnone : (splitUpDown content).findIdx? (isTagPart "UP") = none)
    (hne : ¬ strTrim content = "") :
    (runMigration o fs m .up db).1 = .ok () ∧
    Step.cmd (.execSql (strTrim content)) ∈ (runMigration o fs m .up db).2.2 := by
  have hex : extractSection m content Direction.up = .ok (some content) := by
    simp [extractSection, hnone]
  have hx : extractsToUp fs m content = true := by
    unfold extractsToUp
    rw [hc]
    show (match extractSection m content Direction.up with
      | Except.ok (some t) => t == content && !(strTrim content == "")
      | _ => false) = true
    rw [hex]
    simp [hne]
  rw [runMigration_up_exec o fs m content db hx,
    runMigrationExec_up_ok o m (strTrim content) db (hAll _) (hAll _) (hAll _)]
  exact ⟨rfl, by simp⟩

theorem runMigration_up_whole_file_witness :
    (runMigration oAll fsA1 "a.sql" .up ⟨[]⟩).1 = .ok () ∧
    Step.cmd (.execSql (strTrim "X1")) ∈ (runMigration oAll fsA1 "a.sql" .up ⟨[]⟩).2.2 :=
  runMigration_up_whole_file oAll fsA1 "a.sql" "X1" ⟨[]⟩
    (fun _ => rfl) rfl (by decide) (by decide)

theorem strLeAux_refl : ∀ cs, strLeAux cs cs = true
  | [] => rfl
  | c :: cs => by simp [strLeAux, strLeAux_refl cs]

theorem strLe_refl (s : String) : strLe s s = true := strLeAux_refl _

theorem strLeAux_total : ∀ as bs, strLeAux as bs = true ∨ strLeAux bs as = true := by
  intro as
  induction as with
  | nil => intro bs; exact Or.inl rfl
  | cons a as ih =>
    intro bs
    cases bs with
    | nil => exact Or.inr rfl
    | cons b bs =>
      by_cases hab : a = b
      · subst hab
        rcases ih bs with h | h
        · exact Or.inl (by simp [strLeAux, h])
        · exact Or.inr (by simp [strLeAux, h])
      · rcases lt_or_gt_of_ne hab with hl | hl
        · exact Or.inl (by simp [strLeAux, hab, hl])
        · exact Or.inr (by
            have hba : ¬ b = a := fun h2 => hab h2.symm
            simp [strLeAux, hba, hl])

theorem strLe_total (s t : String) : strLe s t = true ∨ strLe t s = true :=
  strLeAux_total _ _

theorem strLeAux_trans : ∀ as bs cs, strLeAux as bs = true → strLeAux bs cs = true →
    strLeAux as cs = true := by
  intro as
  induction as with
  | nil => intro bs cs h1 h2; rfl
  | cons a as ih =>
    intro bs cs h1 h2
    cases bs with
    | nil => simp [strLeAux] at h1
    | cons b bs =>
      cases cs with
      | nil => simp [strLeAux] at h2
      | cons c cs =>
        by_cases hab : a = b <;> by_cases hbc : b = c
        · subst hab; subst hbc
          simp only [strLeAux, if_pos rfl] at h1 h2 ⊢
          exact ih bs cs h1 h2
        · subst hab
          have h2a : a < c := by simpa [strLeAux, hbc] using h2
          simp [strLeAux, hbc, h2a]
        · subst hbc
          have h1a : a < b := by simpa [strLeAux, hab] using h1
          simp [strLeAux, hab, h1a]
        · have h1a : a < b := by simpa [strLeAux, hab] using h1
          have h2a : b < c := by simpa [strLeAux, hbc] using h2
          have hac : a < c := lt_trans h1a h2a
          simp [strLeAux, ne_of_lt hac, hac]

theorem mem_insertSorted {x y : String} : ∀ {l : List String},
    y ∈ insertSorted x l ↔ y = x ∨ y ∈ l := by
  intro l
  induction l with
  | nil => simp [insertSorted]
  | cons z zs ih =>
    unfold insertSorted
    by_cases h : strLe x z = true
    · simp [h, List.mem_cons]
    · simp [h, List.mem_cons, ih]
      tauto

theorem mem_sortStrings {y : String} : ∀ {l : List String},
    y ∈ sortStrings l ↔ y ∈ l := by
  intro l
  induction l with
  | nil => simp [sortStrings]
  | cons x xs ih => simp [sortStrings, mem_insertSorted, ih, List.mem_cons]

theorem strSorted_insertSorted (x : String) : ∀ (l : List String),
    StrSorted l → StrSorted (insertSorted x l) := by
  intro l
  induction l with
  | nil => intro _; simp [insertSorted, StrSorted]
  | cons z zs ih =>
    intro h
    rcases List.pairwise_cons.mp h with ⟨hz, hzs⟩
    unfold insertSorted
    by_cases hxz : strLe x z = true
    · rw [if_pos hxz]
      refine List.pairwise_cons.mpr ⟨?_, h⟩
      intro w hw
      rcases List.mem_cons.mp hw with rfl | hw2
      · exact hxz
      · exact strLeAux_trans _ _ _ hxz (hz w hw2)
    · rw [if_neg hxz]
      have hzx : strLe z x = true := (strLe_total x z).resolve_left hxz
      refine List.pairwise_cons.mpr ⟨?_, ih hzs⟩
      intro w hw
      rcases mem_insertSorted.mp hw with rfl | hw2
      · exact hzx
      · exact hz w hw2

theorem strSorted_sortStrings : ∀ (l : List String), StrSorted (sortStrings l) := by
  intro l
  induction l with
  | nil => simp [sortStrings, StrSorted]
  | cons x xs ih => exact strSorted_insertSorted x _ ih

theorem strSorted_getLast_max : ∀ (l : List String), StrSorted l →
    ∀ v, l.getLast? = some v → ∀ w ∈ l, strLe w v = true := by
  intro l
  induction l with
  | nil => intro _ v hv; simp at hv
  | cons a l ih =>
    intro h v hv w hw
    cases l with
    | nil =>
      have hav : a = v := by simpa using hv
      subst hav
      have hwa : w = a := by simpa using hw
      subst hwa
      exact strLe_refl _
    | cons b l2 =>
      have hv2 : (b :: l2).getLast? = some v := hv
      rcases List.pairwise_cons.mp h with ⟨ha, h2⟩
      rcases List.mem_cons.mp hw with rfl | hw2
      · exact ha v (List.mem_of_mem_getLast? hv2)
      · exact ih h2 v hv2 w hw2

/-- C3: `migrateDown` with an empty applied list is a no-op completing
normally; with a non-empty applied list it rolls back exactly one migration,
the one whose version is the greatest applied entry under the string order
(the last entry of the sorted SELECT output): its DOWN SQL is executed once
and then its ledger row is deleted. -/
theorem migrateDown_rolls_back_greatest (o : Cmd → Bool) (fs : FS) (db : DB)
    (hAll : ∀ c, o c = true)
    (hRound : parseAppliedOutput (selectOutput db) = sortStrings db.ledger) :
    (db.ledger = [] →
      migrateDown o fs db = (.ok (), db, [Step.cmd .ensureTable, Step.cmd .selectApplied])) ∧
    (∀ v file s, (sortStrings db.ledger).getLast? = some v →
      (getMigrationFiles fs).find? (fun f => versionOf f == v) = some file →
      extractsToDown fs file s = true →
      (∀ w ∈ db.ledger, strLe w v = true) ∧
      migrateDown o fs db =
        (.ok (), ⟨db.ledger.filter (fun w => !(w == v))⟩,
          [Step.cmd .ensureTable, Step.cmd .selectApplied, Step.writeTemp (strTrim s),
           Step.cmd (.execSql (strTrim s)), Step.cmd (.deleteVersion v), Step.removeTemp])) := by
  constructor
  · intro hnil
    rw [migrateDown_eq o fs db (hAll _) (hAll _), hRound, hnil]
    rfl
  · intro v file s hv hfind hx
    have hver : versionOf file = v := by
      have hp := List.find?_some hfind
      simpa using hp
    constructor
    · intro w hw
      exact strSorted_getLast_max _ (strSorted_sortStrings db.ledger) v hv w
        (mem_sortStrings.mpr hw)
    · simp only [migrateDown_eq o fs db (hAll _) (hAll _), hRound, hv, hfind,
        runMigration_down_exec o fs file s db hx,
        runMigrationExec_down_ok o file (strTrim s) db (hAll _) (hAll _), hver]

theorem migrateDown_rolls_back_greatest_witness :
    migrateDown oAll fs3 ⟨["a", "b"]⟩ =
      (.ok (), ⟨["a"]⟩,
        [Step.cmd .ensureTable, Step.cmd .selectApplied, Step.writeTemp "DB1",
         Step.cmd (.execSql "DB1"), Step.cmd (.deleteVersion "b"), Step.removeTemp]) := by
  have h := (migrateDown_rolls_back_greatest oAll fs3 ⟨["a", "b"]⟩ (fun _ => rfl)
    (by decide)).2 "b" "b.sql" "\nDB1" (by decide) (by decide) (by decide)
  exact h.2

/-- C9: when the greatest applied version has no matching migration file,
`migrateDown` fails with `NotFoundError`, the database state is unchanged,
and the only commands run are the two ledger reads (no SQL execution, no
ledger deletion). -/
theorem migrateDown_missing_file (o : Cmd → Bool) (fs : FS) (db : DB) (v : String)
    (hE : o .ensureTable = true) (hS : o .selectApplied = true)
    (hRound : parseAppliedOutput (selectOutput db) = sortStrings db.ledger)
    (hv : (sortStrings db.ledger).getLast? = some v)
    (hnone : (getMigrationFiles fs).find? (fun f => versionOf f == v) = none) :
    migrateDown o fs db =
      (.error (.notFoundError ("Migration file for version: " ++ v)), db,
        [Step.cmd .ensureTable, Step.cmd .selectApplied]) := by
  simp only [migrateDown_eq o fs db hE hS, hRound, hv, hnone]

theorem migrateDown_missing_file_witness :
    migrateDown oAll fsA1 ⟨["c"]⟩ =
      (.error (.notFoundError "Migration file for version: c"), ⟨["c"]⟩,
        [Step.cmd .ensureTable, Step.cmd .selectApplied]) :=
  migrateDown_missing_file oAll fsA1 ⟨["c"]⟩ "c" rfl rfl (by decide) (by decide)
    (by decide)

theorem runMigration_up_ok (o : Cmd → Bool) (fs : FS) (m s : String) (db : DB)
    (hx : extractsToUp fs m s = true)
    (h1 : o (.execSql (strTrim s)) = true)
    (h2 : o (.insertVersion (versionOf m)) = true)
    (h3 : o (.verifyCount (versionOf m)) = true)
    (hnin : ¬ versionOf m ∈ db.ledger) :
    runMigration o fs m .up db =
      (.ok (), ⟨db.ledger ++ [versionOf m]⟩, upTrace m s) := by
  rw [runMigration_up_exec o fs m s db hx,
    runMigrationExec_up_ok o m (strTrim s) db h1 h2 h3]
  have hc : db.ledger.contains (versionOf m) = false :=
    Bool.eq_false_iff.mpr (fun h => hnin (List.elem_iff.mp h))
  simp [applyCmd, hc, hnin, upTrace]

theorem runPending_ok (o : Cmd → Bool) (fs : FS) (sqls : String → String) :
    ∀ (p : List String) (db : DB),
    (∀ x ∈ p, extractsToUp fs x (sqls x) = true) →
    (∀ x ∈ p, upCmdsOk o x (sqls x) = true) →
    (p.map versionOf).Nodup →
    (∀ x ∈ p, ¬ versionOf x ∈ db.ledger) →
    runPending o fs p db =
      (.ok (), ⟨db.ledger ++ p.map versionOf⟩,
        (p.map (fun x => upTrace x (sqls x))).flatten) := by
  intro p
  induction p with
  | nil =>
    intro db _ _ _ _
    simp [runPending]
  | cons m rest ih =>
    intro db hx hcmds hnd hnin
    rw [List.map_cons, List.nodup_cons] at hnd
    obtain ⟨hmv, hndr⟩ := hnd
    have hcm := hcmds m (List.mem_cons_self m rest)
    simp only [upCmdsOk, Bool.and_eq_true] at hcm
    obtain ⟨⟨hc1, hc2⟩, hc3⟩ := hcm
    have hrm := runMigration_up_ok o fs m (sqls m) db
      (hx m (List.mem_cons_self m rest)) hc1 hc2 hc3
      (hnin m (List.mem_cons_self m rest))
    have hnin2 : ∀ x ∈ rest, ¬ versionOf x ∈ db.ledger ++ [versionOf m] := by
      intro x hx2 hmem
      rcases List.mem_append.mp hmem with hmem2 | hmem2
      · exact hnin x (List.mem_cons_of_mem m hx2) hmem2
      · have hvv : versionOf x = versionOf m := by simpa using hmem2
        exact hmv (hvv ▸ List.mem_map_of_mem versionOf hx2)
    have hih := ih ⟨db.ledger ++ [versionOf m]⟩
      (fun x hx2 => hx x (List.mem_cons_of_mem m hx2))
      (fun x hx2 => hcmds x (List.mem_cons_of_mem m hx2)) hndr hnin2
    simp [runPending, hrm, hih, List.append_assoc]

theorem runPending_abort (o : Cmd → Bool) (fs : FS) (sqls : String → String) :
    ∀ (pre : List String) (m : String) (post : List String) (db : DB)
      (e : Err) (dbm : DB) (tm : List Step),
    (∀ x ∈ pre, extractsToUp fs x (sqls x) = true) →
    (∀ x ∈ pre, upCmdsOk o x (sqls x) = true) →
    (pre.map versionOf).Nodup →
    (∀ x ∈ pre, ¬ versionOf x ∈ db.ledger) →
    runMigration o fs m .up ⟨db.ledger ++ pre.map versionOf⟩ = (.error e, dbm, tm) →
    runPending o fs (pre ++ m :: post) db =
      (.error e, dbm, (pre.map (fun x => upTrace x (sqls x))).flatten ++ tm) := by
  intro pre
  induction pre with
  | nil =>
    intro m post db e dbm tm _ _ _ _ hm
    rw [List.map_nil, List.append_nil] at hm
    have hm2 : runMigration o fs m .up db = (.error e, dbm, tm) := hm
    rw [List.nil_append]
    unfold runPending
    rw [hm2]
    simp
  | cons x pre ih =>
    intro m post db e dbm tm hx hcmds hnd hnin hm
    rw [List.map_cons, List.nodup_cons] at hnd
    obtain ⟨hmv, hndr⟩ := hnd
    have hcm := hcmds x (List.mem_cons_self x pre)
    simp only [upCmdsOk, Bool.and_eq_true] at hcm
    obtain ⟨⟨hc1, hc2⟩, hc3⟩ := hcm
    have hrm := runMigration_up_ok o fs x (sqls x) db
      (hx x (List.mem_cons_self x pre)) hc1 hc2 hc3
      (hnin x (List.mem_cons_self x pre))
    have hnin2 : ∀ y ∈ pre, ¬ versionOf y ∈ db.ledger ++ [versionOf x] := by
      intro y hy2 hmem
      rcases List.mem_append.mp hmem with hmem2 | hmem2
      · exact hnin y (List.mem_cons_of_mem x hy2) hmem2
      · have hvv : versionOf y = versionOf x := by simpa using hmem2
        exact hmv (hvv ▸ List.mem_map_of_mem versionOf hy2)
    have hm2 : runMigration o fs m .up
        ⟨(db.ledger ++ [versionOf x]) ++ pre.map versionOf⟩ = (.error e, dbm, tm) := by
      rw [List.map_cons] at hm
      rw [List.append_assoc, List.singleton_append]
      exact hm
    have hih := ih m post ⟨db.ledger ++ [versionOf x]⟩ e dbm tm
      (fun y hy2 => hx y (List.mem_cons_of_mem x hy2))
      (fun y hy2 => hcmds y (List.mem_cons_of_mem x hy2)) hndr hnin2 hm2
    simp [runPending, hrm, hih, List.append_assoc]

/-- C2: `migrateUp` computes the pending set — exactly the migration files
whose version is absent from the ledger — already sorted ascending under the
string comparator, and applies it in that order: when every pending
migration extracts and its three external commands succeed, the run
completes normally, the ledger gains exactly the pending versions in order,
and the step trace is the two ledger reads followed, per migration, by temp
write, UP SQL execution, ledger INSERT and verification; and if any pending
migration fails in any way — its UP SQL execution rejected by the Command
Executor, its file missing, its section empty — while the earlier pending
migrations succeeded, that error propagates out of `migrateUp`, the earlier
pending migrations were executed and recorded, and the remaining ones are
not attempted (the trace ends with the failing migration's steps). -/
theorem migrateUp_applies_pending_in_order (o : Cmd → Bool) (fs : FS) (db : DB)
    (hE : o .ensureTable = true) (hS : o .selectApplied = true)
    (hRound : parseAppliedOutput (selectOutput db) = sortStrings db.ledger) :
    StrSorted (pendingOf fs (sortStrings db.ledger)) ∧
    (∀ f, f ∈ pendingOf fs (sortStrings db.ledger) ↔
      f ∈ getMigrationFiles fs ∧ ¬ versionOf f ∈ db.ledger) ∧
    (∀ sqls : String → String,
      (∀ x ∈ pendingOf fs (sortStrings db.ledger), extractsToUp fs x (sqls x) = true) →
      (∀ x ∈ pendingOf fs (sortStrings db.ledger), upCmdsOk o x (sqls x) = true) →
      ((pendingOf fs (sortStrings db.ledger)).map versionOf).Nodup →
      migrateUp o fs db =
        (.ok (), ⟨db.ledger ++ (pendingOf fs (sortStrings db.ledger)).map versionOf⟩,
          Step.cmd .ensureTable :: Step.cmd .selectApplied ::
            ((pendingOf fs (sortStrings db.ledger)).map
              (fun x => upTrace x (sqls x))).flatten)) ∧
    (∀ (sqls : String → String) pre m post (e : Err) (dbm : DB) (tm : List Step),
      pendingOf fs (sortStrings db.ledger) = pre ++ m :: post →
      (∀ x ∈ pre, extractsToUp fs x (sqls x) = true) →
      (∀ x ∈ pre, upCmdsOk o x (sqls x) = true) →
      (pre.map versionOf).Nodup →
      runMigration o fs m .up ⟨db.ledger ++ pre.map versionOf⟩ = (.error e, dbm, tm) →
      migrateUp o fs db =
        (.error e, dbm, Step.cmd .ensureTable :: Step.cmd .selectApplied ::
          ((pre.map (fun x => upTrace x (sqls x))).flatten ++ tm))) := by
  have hiff : ∀ f, f ∈ pendingOf fs (sortStrings db.ledger) ↔
      f ∈ getMigrationFiles fs ∧ ¬ versionOf f ∈ db.ledger := by
    intro f
    have hc : ((sortStrings db.ledger).contains (versionOf f) = false) ↔
        ¬ versionOf f ∈ db.ledger := by
      rw [Bool.eq_false_iff]
      exact not_congr (List.elem_iff.trans mem_sortStrings)
    simp only [pendingOf, List.mem_filter, Bool.not_eq_true']
    exact and_congr_right (fun _ => hc)
  refine ⟨?_, hiff, ?_, ?_⟩
  · exact (strSorted_sortStrings _).sublist (List.filter_sublist _)
  · intro sqls hx hcmds hnd
    have hnin : ∀ x ∈ pendingOf fs (sortStrings db.ledger), ¬ versionOf x ∈ db.ledger :=
      fun x hxp => ((hiff x).mp hxp).2
    rw [migrateUp_eq o fs db hE hS, hRound]
    by_cases hp : pendingOf fs (sortStrings db.ledger) = []
    · simp [hp]
    · rw [if_neg hp, runPending_ok o fs sqls _ db hx hcmds hnd hnin]
  · intro sqls pre m post e dbm tm hsplit hpre hcmds hnd hmfail
    have hnin : ∀ x ∈ pre, ¬ versionOf x ∈ db.ledger := by
      intro x hxp
      have hxm : x ∈ pendingOf fs (sortStrings db.ledger) := by
        rw [hsplit]; exact List.mem_append_left _ hxp
      exact ((hiff x).mp hxm).2
    have hne : ¬ pendingOf fs (sortStrings db.ledger) = [] := by
      rw [hsplit]; simp
    have hrun := runPending_abort o fs sqls pre m post db e dbm tm hpre hcmds hnd
      hnin hmfail
    rw [migrateUp_eq o fs db hE hS, hRound, if_neg hne, hsplit, hrun]

theorem migrateUp_applies_pending_witness :
    ((migrateUp oAll fsAB ⟨[]⟩).1 = .ok () ∧
      (migrateUp oAll fsAB ⟨[]⟩).2.1.ledger = ["a", "b"]) ∧
    ((migrateUp oFailB fsAB ⟨[]⟩).1 = .error (.databaseError "Command execution failed") ∧
      (migrateUp oFailB fsAB ⟨[]⟩).2.1.ledger = ["a"]) := by
  constructor
  · have h := (migrateUp_applies_pending_in_order oAll fsAB ⟨[]⟩ rfl rfl
      (by decide)).2.2.1 sqlsAB (by decide) (by decide) (by decide)
    rw [h]
    exact ⟨rfl, by decide⟩
  · have h := (migrateUp_applies_pending_in_order oFailB fsAB ⟨[]⟩ rfl rfl
      (by decide)).2.2.2 sqlsAB ["a.sql"] "b.sql" []
      (.databaseError "Command execution failed") ⟨["a"]⟩
      [Step.writeTemp "B1", Step.cmd (.execSql "B1"), Step.removeTemp]
      (by decide) (by decide) (by decide) (by decide) rfl
    rw [h]
    exact ⟨rfl, rfl⟩

theorem sqlPat_prefixOf_append_false (c : Char) (s2 : List Char)
    (hp : List.isPrefixOf ['.', 's', 'q', 'l'] (c :: s2) = false) :
    List.isPrefixOf ['.', 's', 'q', 'l'] (c :: (s2 ++ ['.', 's', 'q', 'l'])) = false := by
  match s2 with
  | [] =>
    simp [List.isPrefixOf, List.nil_append, show ('s' == '.') = false from rfl]
  | [a] =>
    simp [List.isPrefixOf, List.cons_append, show ('q' == '.') = false from rfl]
  | [a, b] =>
    simp [List.isPrefixOf, List.cons_append, show ('l' == '.') = false from rfl]
  | a :: b :: d :: s3 =>
    simp only [List.cons_append]
    simpa only [List.isPrefixOf, Bool.and_true] using hp

theorem replaceFirst_stem : ∀ (s : List Char),
    containsSub ['.', 's', 'q', 'l'] s = false →
    listReplaceFirst (s ++ ['.', 's', 'q', 'l']) ['.', 's', 'q', 'l'] = s := by
  intro s
  induction s with
  | nil => intro _; rfl
  | cons c s2 ih =>
    intro h
    have hor := h
    unfold containsSub at hor
    rw [Bool.or_eq_false_iff] at hor
    obtain ⟨hp, hrest⟩ := hor
    rw [List.cons_append]
    simp only [listReplaceFirst]
    rw [sqlPat_prefixOf_append_false c s2 hp]
    simp [ih hrest]

/-- C10: the claim as stated is false in its final clause.  The filename
"a.sql.sql" contains ".sql" before the trailing extension, yet its computed
version, "a.sql", IS exactly the filename minus its extension. -/
theorem versionOf_early_sql_counterexample :
    versionOf "a.sql.sql" = "a.sql" ∧
    "a.sql.sql" = "a.sql" ++ ".sql" ∧
    containsSub ['.', 's', 'q', 'l'] ("a.sql".toList) = true :=
  ⟨rfl, rfl, rfl⟩

/-- C10 (amended): the version deletes the FIRST occurrence of ".sql" from
the filename; it equals the filename minus its trailing extension whenever
".sql" does not occur inside the stem, and `migrationStatus` reports exactly
this computation per file.  When ".sql" occurs inside the stem, the version
may differ from the stem ("a.sqlb.sql" gives "ab.sql", not "a.sqlb") but
need not ("a.sql.sql" gives "a.sql"). -/
theorem versionOf_replace_first_spec :
    (∀ (f : String) (s : List Char),
      f.toList = s ++ ['.', 's', 'q', 'l'] →
      containsSub ['.', 's', 'q', 'l'] s = false →
      versionOf f = String.mk s) ∧
    versionOf "a.sqlb.sql" = "ab.sql" ∧
    ¬ "ab.sql" = "a.sqlb" ∧
    (∀ (o : Cmd → Bool) (fs : FS) (db : DB),
      o .ensureTable = true → o .selectApplied = true →
      (migrationStatus o fs db).1 =
        .ok ((getMigrationFiles fs).map (fun m =>
          (m, versionOf m,
            (parseAppliedOutput (selectOutput db)).contains (versionOf m))))) := by
  refine ⟨?_, rfl, by decide, ?_⟩
  · intro f s hf hno
    unfold versionOf
    rw [show ".sql".toList = ['.', 's', 'q', 'l'] from rfl, hf, replaceFirst_stem s hno]
  · intro o fs db hE hS
    unfold migrationStatus
    rw [getApplied_ok o db hE hS]
    by_cases hn : getMigrationFiles fs = []
    · simp [hn]
    · simp [hn]

theorem versionOf_replace_first_witness :
    versionOf "20240101_a.sql" = "20240101_a" ∧
    ¬ versionOf "a.sqlb.sql" = "a.sqlb" := by
  constructor
  · exact versionOf_replace_first_spec.1 "20240101_a.sql" ("20240101_a".toList)
      rfl rfl
  · intro hbad
    exact versionOf_replace_first_spec.2.2.1
      (versionOf_replace_first_spec.2.1.symm.trans hbad)

end FoodMigrate
